import Mathlib

/-!
Verification of the message-forwarding core of `distosp` (`src/bot/src/fwd.rs`).

Strings are modelled as `List Char`.  Rust string primitives used by the
source are re-implemented structurally so that every definition evaluates
inside the kernel:

* `leadsWith p s`  — Rust `str::starts_with` (`p` is an initial run of `s`);
* `segIn p s`      — Rust `str::contains` (`p` occurs contiguously in `s`);
* `splitOnChar`    — Rust `str::split(char)`;
* `trimChars`      — Rust `str::trim` (ASCII whitespace; the inputs
                     considered contain no exotic Unicode whitespace);
* `replaceAll`     — Rust `str::replace`: leftmost, non-overlapping,
                     global substitution (fuel-based structural recursion).
-/

/-- Rust `str::starts_with`: the first list is an initial run of the second. -/
def leadsWith : List Char → List Char → Bool
  | [], _ => true
  | _ :: _, [] => false
  | c :: p, d :: s => c == d && leadsWith p s

/-- Rust `str::contains`: the first list occurs contiguously in the second. -/
def segIn (p : List Char) : List Char → Bool
  | [] => p.isEmpty
  | d :: s => leadsWith p (d :: s) || segIn p s

/-- Rust `str::split(sep)` for a single-character separator. -/
def splitOnChar (sep : Char) : List Char → List (List Char)
  | [] => [[]]
  | c :: rest =>
    let r := splitOnChar sep rest
    if c == sep then [] :: r
    else
      match r with
      | [] => [[c]]
      | h :: t => (c :: h) :: t

/-- Rust `str::trim`: remove leading and trailing whitespace. -/
def trimChars (l : List Char) : List Char :=
  ((l.dropWhile Char.isWhitespace).reverse.dropWhile Char.isWhitespace).reverse

/-- Worker for `replaceAll`; `fuel` bounds the length of the remaining text. -/
def replaceAllAux (pat rep : List Char) : Nat → List Char → List Char
  | _, [] => []
  | 0, s => s
  | fuel + 1, c :: rest =>
    if !pat.isEmpty && leadsWith pat (c :: rest) then
      rep ++ replaceAllAux pat rep fuel ((c :: rest).drop pat.length)
    else
      c :: replaceAllAux pat rep fuel rest

/-- Rust `str::replace`: replace every (leftmost, non-overlapping)
occurrence of `pat` by `rep`. -/
def replaceAll (pat rep s : List Char) : List Char :=
  replaceAllAux pat rep s.length s

deriving instance DecidableEq for Except

/-!
## Data model (serenity / atrium shapes used by `fwd.rs`)

`User.displayName` models serenity's `User::display_name()` (the string the
source interpolates); `Guild.roles` models the guild's role table in the
gateway cache; `Cache.guild` models `ctx.cache.guild(..)`.  Identifiers are
`Nat` and are rendered in decimal by `Nat.repr`, matching Rust's `Display`
for the id newtypes.
-/

/-- A chat user: id, display name, and the automated-account flag. -/
structure User where
  id : Nat
  displayName : List Char
  bot : Bool
deriving DecidableEq

/-- A channel mention carried by a message (`msg.mention_channels` entry). -/
structure ChannelMention where
  id : Nat
  name : List Char
deriving DecidableEq

/-- A role object in the guild's role table. -/
structure Role where
  name : List Char
deriving DecidableEq

/-- A guild as seen through the gateway cache: its role table. -/
structure Guild where
  roles : Nat → Option Role

/-- The gateway cache: guild lookup (`ctx.cache.guild`). -/
structure Cache where
  guild : Nat → Option Guild

/-- An inbound Discord message (the fields `fwd.rs` reads). -/
structure Message where
  channel_id : List Char
  author : User
  content : List Char
  mentions : List User
  mention_channels : List ChannelMention
  mention_roles : List Nat
  guild_id : Option Nat

/-- The authenticated ATP session (`atp_client.get_session()`), reduced to
the submitting identity. -/
structure Session where
  did : List Char

/-- The `place.stream.chat.message` record constructed at fwd.rs:80-86.
`created_at` is stamped at relay time (a parameter of the model); facets
and reply are constantly `None` in the source and are omitted. -/
structure RecordData where
  text : List Char
  created_at : Nat
  streamer : List Char
deriving DecidableEq

/-- Result of one `forward_message` invocation: an intentional skip
(`return Ok(())` before record construction) or a submission of the
constructed record.  The remote `create_record` call itself is external to
the core and is modelled as accepting the record. -/
inductive Outcome where
  | skipped : Outcome
  | submitted : RecordData → Outcome
deriving DecidableEq

/-!
## The Message Transformer (`format_discord_message`, fwd.rs:153-196)
-/

/-- The Discord user-mention token `format!("<@{}>", user.id)`. -/
def mentionToken (id : Nat) : List Char :=
  '<' :: '@' :: ((Nat.repr id).data ++ ['>'])

/-- The Discord channel-mention token `format!("<#{}>", channel.id)`. -/
def channelToken (id : Nat) : List Char :=
  '<' :: '#' :: ((Nat.repr id).data ++ ['>'])

/-- The Discord role-mention token `format!("<@&{}>", role.get())`. -/
def roleToken (id : Nat) : List Char :=
  '<' :: '@' :: '&' :: ((Nat.repr id).data ++ ['>'])

/-- One iteration of the user-mention loop (fwd.rs:161-165). -/
def applyUser (content : List Char) (user : User) : List Char :=
  replaceAll (mentionToken user.id) ('@' :: user.displayName) content

/-- One iteration of the channel-mention loop (fwd.rs:168-171). -/
def applyChannel (content : List Char) (ch : ChannelMention) : List Char :=
  replaceAll (channelToken ch.id) ('#' :: ch.name) content

/-- One iteration of the role-mention loop (fwd.rs:176-181): an
unresolvable role id leaves the content untouched. -/
def applyRole (g : Guild) (content : List Char) (r : Nat) : List Char :=
  match g.roles r with
  | some ro => replaceAll (roleToken r) ('@' :: ro.name) content
  | none => content

/-- The role-mention phase (fwd.rs:174-183): runs only when the message
has a guild id that resolves in the cache. -/
def substRoles (cache : Cache) (msg : Message) (content : List Char) : List Char :=
  match msg.guild_id with
  | none => content
  | some gid =>
    match cache.guild gid with
    | none => content
    | some g => msg.mention_roles.foldl (applyRole g) content

/-- `format_discord_message` (fwd.rs:153-196).  Errors are the message
strings of the Rust error values. -/
def format_discord_message (cache : Cache) (msg : Message) :
    Except (List Char) (List Char) :=
  let content := msg.content
  if (trimChars content).isEmpty then
    Except.error "no content found!".toList
  else
    let c1 := msg.mentions.foldl applyUser content
    let c2 := msg.mention_channels.foldl applyChannel c1
    let c3 := substRoles cache msg c2
    let author_info := msg.author.displayName ++ " (Discord):".toList
    Except.ok
      (if (trimChars c3).isEmpty then author_info
       else author_info ++ ' ' :: trimChars c3)

/-!
## The Channel Directory (`get_channel_mappings` and friends, fwd.rs:200-233)

The environment variable `CHANNEL_MAPPINGS` is modelled as an
`Option (List Char)` parameter (`none` = variable absent).  The Rust
`HashMap` is modelled as an association list whose `insert` overwrites an
existing key, which preserves exactly the lookup/contains behaviour the
source uses.
-/

/-- `HashMap::insert`: overwrite the binding of `k` if present, else add it. -/
def insertMapping : List (List Char × List Char) → List Char → List Char →
    List (List Char × List Char)
  | [], k, v => [(k, v)]
  | (k0, v0) :: rest, k, v =>
    if k0 = k then (k, v) :: rest else (k0, v0) :: insertMapping rest k v

/-- `HashMap::get`: the value bound to `k`, if any. -/
def lookupMapping : List (List Char × List Char) → List Char → Option (List Char)
  | [], _ => none
  | (k0, v0) :: rest, k => if k0 = k then some v0 else lookupMapping rest k

/-- One iteration of the parsing loop of `get_channel_mappings`
(fwd.rs:206-211): the pair is split on `=`; exactly two fields are
inserted (trimmed), anything else is ignored. -/
def insertPair (m : List (List Char × List Char)) (pair : List Char) :
    List (List Char × List Char) :=
  match splitOnChar '=' pair with
  | [k, v] => insertMapping m (trimChars k) (trimChars v)
  | _ => m

/-- The parsing loop of `get_channel_mappings` (fwd.rs:206-211). -/
def parseMappings (pairs : List (List Char)) : List (List Char × List Char) :=
  pairs.foldl insertPair []

/-- `get_channel_mappings` (fwd.rs:200-217): absent variable yields the
empty directory. -/
def get_channel_mappings (env : Option (List Char)) :
    List (List Char × List Char) :=
  match env with
  | some s => parseMappings (splitOnChar ',' s)
  | none => []

/-- `get_streamer_for_channel` (fwd.rs:220-226). -/
def get_streamer_for_channel (env : Option (List Char)) (channel_id : List Char) :
    Except (List Char) (List Char) :=
  match lookupMapping (get_channel_mappings env) channel_id with
  | some did => Except.ok did
  | none =>
    Except.error ("No streamer mapping found for channel ".toList ++ channel_id)

/-- `should_forward_channel` (fwd.rs:229-233). -/
def should_forward_channel (env : Option (List Char)) (channel_id : List Char) :
    Bool :=
  (lookupMapping (get_channel_mappings env) channel_id).isSome

/-!
## The Forwarding Coordinator (`forward_message`, fwd.rs:19-149)

Telemetry attributes and log statements have no effect on the result and
are omitted.  The external effects are parameters: the cache, the
environment, the session (`None` = no active session) and the submission
timestamp.  DID syntax validation (`streamer_did.parse()?`) and the remote
`create_record` transport are delegated to external crates and modelled as
accepting their input; no claim below depends on either failing.
-/

/-- `forward_message` (fwd.rs:19-149). -/
def forward_message (cache : Cache) (env : Option (List Char))
    (session : Option Session) (now : Nat) (msg : Message) :
    Except (List Char) Outcome :=
  if msg.author.bot || leadsWith ['~'] msg.content then
    Except.ok Outcome.skipped
  else
    match format_discord_message cache msg with
    | Except.error e => Except.error e
    | Except.ok message_text =>
      if (trimChars message_text).isEmpty then
        Except.ok Outcome.skipped
      else
        match get_streamer_for_channel env msg.channel_id with
        | Except.error e => Except.error e
        | Except.ok streamer_did =>
          match session with
          | none => Except.error "No active session".toList
          | some _ =>
            Except.ok (Outcome.submitted
              { text := message_text
                created_at := now
                streamer := streamer_did })

/-!
## Auxiliary notions used by the theorems
-/

/-- `q` is a final run of `s`. -/
def IsTail (q s : List Char) : Prop := ∃ u, u ++ q = s

/-- The ASCII digits (the characters `Nat.repr` can emit). -/
def digitChars : List Char := "0123456789".toList

/-- The ASCII letters. -/
def alphaChars : List Char :=
  "abcdefghijklmnopqrstuvwxyzABCDEFGHIJKLMNOPQRSTUVWXYZ".toList

/-- A benign display name: nonempty and made of ASCII letters only.  Such
a replacement text can never rebuild a mention token. -/
def goodName (nm : List Char) : Prop := nm ≠ [] ∧ ∀ c ∈ nm, c ∈ alphaChars

instance (nm : List Char) : Decidable (goodName nm) := by
  unfold goodName
  infer_instance

/-- The common shape of the user and channel mention tokens: an opening
`<`, a sigil (`@` or `#`), a nonempty run of decimal digits, a closing
`>`. -/
def TokShape (tok : List Char) (sig : Char) (ds : List Char) : Prop :=
  tok = '<' :: sig :: (ds ++ ['>']) ∧ (sig = '@' ∨ sig = '#') ∧
    ds ≠ [] ∧ ∀ c ∈ ds, c ∈ digitChars

/-- The common shape of every replacement string the transformer inserts:
a sigil (`@` or `#`) followed by a benign name. -/
def RepShape (rep : List Char) : Prop :=
  ∃ sig nm, rep = sig :: nm ∧ (sig = '@' ∨ sig = '#') ∧
    nm ≠ [] ∧ ∀ c ∈ nm, c ∈ alphaChars

/-- All role names the role-mention phase can actually insert for `msg`
are benign. -/
def RolesHygienic (cache : Cache) (msg : Message) : Prop :=
  ∀ gid, msg.guild_id = some gid → ∀ g, cache.guild gid = some g →
    ∀ r ∈ msg.mention_roles, ∀ ro, g.roles r = some ro → goodName ro.name

/-!
## Concrete fixtures
-/

/-- A cache with no guilds. -/
def noGuilds : Cache := ⟨fun _ => none⟩

/-- The round-trip scenario of the specification (§8). -/
def msgRoundTrip : Message :=
  { channel_id := "1".toList
    author := { id := 7, displayName := "Ana".toList, bot := false }
    content := "<@123> hi".toList
    mentions := [{ id := 123, displayName := "Bob".toList, bot := false }]
    mention_channels := []
    mention_roles := []
    guild_id := none }

/-- A non-automated message whose raw text is whitespace only. -/
def msgBlank : Message :=
  { channel_id := "1".toList
    author := { id := 7, displayName := "Ana".toList, bot := false }
    content := " ".toList
    mentions := []
    mention_channels := []
    mention_roles := []
    guild_id := none }

/-- A message whose second mention's display name spells the first
mention's token, so substitution reintroduces it. -/
def msgPolluted : Message :=
  { channel_id := "1".toList
    author := { id := 7, displayName := "Ana".toList, bot := false }
    content := "<@2>".toList
    mentions := [{ id := 1, displayName := "A".toList, bot := false },
                 { id := 2, displayName := "<@1>".toList, bot := false }]
    mention_channels := []
    mention_roles := []
    guild_id := none }

/-- A message carrying a role mention with no guild context, so the role
id cannot be resolved. -/
def msgRole : Message :=
  { channel_id := "1".toList
    author := { id := 8, displayName := "Rae".toList, bot := false }
    content := "<@&9> hi".toList
    mentions := []
    mention_channels := []
    mention_roles := [9]
    guild_id := none }

/-- A plain forwardable message on channel `chan`. -/
def msgPlain : Message :=
  { channel_id := "chan".toList
    author := { id := 7, displayName := "Ana".toList, bot := false }
    content := "hi".toList
    mentions := []
    mention_channels := []
    mention_roles := []
    guild_id := none }

/-- A message from an automated account. -/
def msgBot : Message :=
  { channel_id := "1".toList
    author := { id := 7, displayName := "B".toList, bot := true }
    content := "hello".toList
    mentions := []
    mention_channels := []
    mention_roles := []
    guild_id := none }

/-!
## Lemmas about the string primitives
-/

theorem leadsWith_nil (s : List Char) : leadsWith [] s = true := by
  cases s <;> rfl

theorem eq_nil_of_leadsWith_nil {p : List Char} (h : leadsWith p [] = true) :
    p = [] := by
  cases p with
  | nil => rfl
  | cons c q => simp [leadsWith] at h

theorem leadsWith_cons_iff {c d : Char} {p s : List Char} :
    leadsWith (c :: p) (d :: s) = true ↔ c = d ∧ leadsWith p s = true := by
  simp [leadsWith]

theorem leadsWith_mem {p s : List Char} (h : leadsWith p s = true) :
    ∀ c ∈ p, c ∈ s := by
  induction p generalizing s with
  | nil => intro c hc; cases hc
  | cons a p ih =>
    cases s with
    | nil => simp [leadsWith] at h
    | cons b s =>
      rw [leadsWith_cons_iff] at h
      obtain ⟨rfl, h2⟩ := h
      intro c hc
      rcases List.mem_cons.mp hc with rfl | hc
      · exact List.mem_cons_self _ _
      · exact List.mem_cons_of_mem _ (ih h2 c hc)

theorem leadsWith_append_self (a t : List Char) : leadsWith a (a ++ t) = true := by
  induction a with
  | nil => exact leadsWith_nil t
  | cons c a ih => simpa [leadsWith] using ih

theorem leadsWith_refl (a : List Char) : leadsWith a a = true := by
  simpa using leadsWith_append_self a []

theorem leadsWith_extend {p a : List Char} (t : List Char)
    (h : leadsWith p a = true) : leadsWith p (a ++ t) = true := by
  induction p generalizing a with
  | nil => exact leadsWith_nil _
  | cons c p ih =>
    cases a with
    | nil => simp [leadsWith] at h
    | cons b a =>
      rw [leadsWith_cons_iff] at h
      rw [List.cons_append, leadsWith_cons_iff]
      exact ⟨h.1, ih h.2⟩

theorem leadsWith_append_elim {l a b : List Char}
    (h : leadsWith l (a ++ b) = true) :
    leadsWith l a = true ∨ ∃ q, l = a ++ q ∧ leadsWith q b = true := by
  induction a generalizing l with
  | nil => exact Or.inr ⟨l, rfl, h⟩
  | cons x a ih =>
    cases l with
    | nil => exact Or.inl (leadsWith_nil _)
    | cons y l =>
      rw [List.cons_append, leadsWith_cons_iff] at h
      obtain ⟨rfl, h2⟩ := h
      rcases ih h2 with h3 | ⟨q, rfl, h4⟩
      · exact Or.inl (leadsWith_cons_iff.mpr ⟨rfl, h3⟩)
      · exact Or.inr ⟨q, rfl, h4⟩

theorem segIn_of_leadsWith {p s : List Char} (h : leadsWith p s = true) :
    segIn p s = true := by
  cases s with
  | nil =>
    have := eq_nil_of_leadsWith_nil h
    subst this; rfl
  | cons c rest => simp [segIn, h]

theorem segIn_mem {p s : List Char} (h : segIn p s = true) : ∀ c ∈ p, c ∈ s := by
  induction s with
  | nil =>
    cases p with
    | nil => intro c hc; cases hc
    | cons a q => simp [segIn] at h
  | cons d s ih =>
    simp only [segIn, Bool.or_eq_true] at h
    rcases h with h | h
    · exact leadsWith_mem h
    · intro c hc
      exact List.mem_cons_of_mem _ (ih h c hc)

theorem segIn_head_skip {h0 : Char} {pt b : List Char} :
    ∀ a : List Char, h0 ∉ a → segIn (h0 :: pt) (a ++ b) = true →
      segIn (h0 :: pt) b = true
  | [], _, hseg => hseg
  | c :: a, hmem, hseg => by
    rw [List.cons_append] at hseg
    simp only [segIn, Bool.or_eq_true] at hseg
    rcases hseg with hlw | hseg
    · rw [leadsWith_cons_iff] at hlw
      obtain ⟨rfl, _⟩ := hlw
      exact absurd (List.mem_cons_self _ _) hmem
    · exact segIn_head_skip a (fun hx => hmem (List.mem_cons_of_mem _ hx)) hseg

theorem segIn_extend {p a : List Char} (t : List Char) (h : segIn p a = true) :
    segIn p (a ++ t) = true := by
  induction a with
  | nil =>
    cases p with
    | nil =>
      cases t with
      | nil => rfl
      | cons c t => simp [segIn, leadsWith_nil]
    | cons c p => simp [segIn] at h
  | cons c a ih =>
    rw [List.cons_append]
    simp only [segIn, Bool.or_eq_true] at h ⊢
    rcases h with h | h
    · exact Or.inl (by rw [← List.cons_append]; exact leadsWith_extend t h)
    · exact Or.inr (ih h)

theorem isTail_cons {q s : List Char} (c : Char) (h : IsTail q s) :
    IsTail q (c :: s) := by
  obtain ⟨u, hu⟩ := h
  exact ⟨c :: u, by rw [List.cons_append, hu]⟩

theorem isTail_drop (n : Nat) (s : List Char) : IsTail (s.drop n) s :=
  ⟨s.take n, List.take_append_drop n s⟩

theorem isTail_elim {q : List Char} {c : Char} {s : List Char}
    (h : IsTail q (c :: s)) : q = c :: s ∨ IsTail q s := by
  obtain ⟨u, hu⟩ := h
  cases u with
  | nil => exact Or.inl (by simpa using hu)
  | cons x u =>
    rw [List.cons_append] at hu
    injection hu with h1 h2
    exact Or.inr ⟨u, h2⟩

theorem isTail_step {c : Char} {q s : List Char} (h : IsTail (c :: q) s) :
    IsTail q s := by
  obtain ⟨u, hu⟩ := h
  refine ⟨u ++ [c], ?_⟩
  rw [List.append_assoc]
  simpa using hu

theorem mem_of_isTail {q s : List Char} (h : IsTail q s) : ∀ c ∈ q, c ∈ s := by
  obtain ⟨u, rfl⟩ := h
  intro c hc
  exact List.mem_append_right u hc

theorem segIn_of_isTail {p q s : List Char} (ht : IsTail q s)
    (h : segIn p q = true) : segIn p s = true := by
  obtain ⟨u, rfl⟩ := ht
  induction u with
  | nil => simpa using h
  | cons c u ih =>
    rw [List.cons_append]
    simp only [segIn, Bool.or_eq_true]
    exact Or.inr ih

theorem all_dropWhile_iff (p : Char → Bool) (l : List Char) :
    (∀ c ∈ l.dropWhile p, p c = true) ↔ ∀ c ∈ l, p c = true := by
  induction l with
  | nil => simp
  | cons c rest ih =>
    by_cases hc : p c = true
    · rw [List.dropWhile_cons, if_pos hc]
      simp [hc, ih]
    · rw [List.dropWhile_cons, if_neg hc]

theorem isTail_dropWhile (p : Char → Bool) (x : List Char) :
    IsTail (x.dropWhile p) x := by
  induction x with
  | nil => exact ⟨[], rfl⟩
  | cons c rest ih =>
    by_cases hc : p c = true
    · obtain ⟨u, hu⟩ := ih
      exact ⟨c :: u, by rw [List.dropWhile_cons, if_pos hc, List.cons_append, hu]⟩
    · exact ⟨[], by rw [List.dropWhile_cons, if_neg hc, List.nil_append]⟩

theorem trim_segIn {q l : List Char} (h : segIn q (trimChars l) = true) :
    segIn q l = true := by
  unfold trimChars at h
  obtain ⟨u, hu⟩ :=
    isTail_dropWhile Char.isWhitespace (l.dropWhile Char.isWhitespace).reverse
  have hd : l.dropWhile Char.isWhitespace =
      ((l.dropWhile Char.isWhitespace).reverse.dropWhile Char.isWhitespace).reverse
        ++ u.reverse := by
    have := congrArg List.reverse hu
    simpa [List.reverse_append] using this.symm
  have h2 : segIn q (l.dropWhile Char.isWhitespace) = true := by
    rw [hd]
    exact segIn_extend _ h
  exact segIn_of_isTail (isTail_dropWhile _ _) h2

theorem trim_ne_nil {c : Char} {l : List Char} (hc : c ∈ l)
    (hw : c.isWhitespace = false) : trimChars l ≠ [] := by
  intro h
  unfold trimChars at h
  rw [List.reverse_eq_nil_iff, List.dropWhile_eq_nil_iff] at h
  have h2 : ∀ x ∈ l.dropWhile Char.isWhitespace, x.isWhitespace = true := by
    intro x hx
    exact h x (List.mem_reverse.mpr hx)
  have h3 := (all_dropWhile_iff _ _).mp h2 c hc
  rw [h3] at hw
  cases hw

theorem isEmpty_true_iff (l : List Char) : l.isEmpty = true ↔ l = [] := by
  cases l <;> simp

/-!
## Decimal rendering facts (`Nat.repr`)
-/

theorem digitChar_mem (m : Nat) (h : m < 10) : Nat.digitChar m ∈ digitChars := by
  interval_cases m <;> decide

theorem toDigitsCore_mem (fuel : Nat) : ∀ (n : Nat) (ds : List Char),
    (∀ c ∈ ds, c ∈ digitChars) →
    ∀ c ∈ Nat.toDigitsCore 10 fuel n ds, c ∈ digitChars := by
  induction fuel with
  | zero => intro n ds hds; simpa [Nat.toDigitsCore] using hds
  | succ f ih =>
    intro n ds hds c hc
    rw [Nat.toDigitsCore] at hc
    by_cases h0 : n / 10 = 0
    · rw [if_pos h0] at hc
      rcases List.mem_cons.mp hc with rfl | hc2
      · exact digitChar_mem _ (Nat.mod_lt _ (by omega))
      · exact hds c hc2
    · rw [if_neg h0] at hc
      refine ih (n / 10) _ ?_ c hc
      intro x hx
      rcases List.mem_cons.mp hx with rfl | hx2
      · exact digitChar_mem _ (Nat.mod_lt _ (by omega))
      · exact hds x hx2

theorem toDigitsCore_shape (fuel : Nat) : ∀ (n : Nat) (ds : List Char),
    ∃ l, Nat.toDigitsCore 10 fuel n ds = l ++ ds ∧ (0 < fuel → l ≠ []) := by
  induction fuel with
  | zero => intro n ds; exact ⟨[], by simp [Nat.toDigitsCore], by omega⟩
  | succ f ih =>
    intro n ds
    rw [Nat.toDigitsCore]
    by_cases h0 : n / 10 = 0
    · rw [if_pos h0]
      exact ⟨[Nat.digitChar (n % 10)], rfl, fun _ => by simp⟩
    · rw [if_neg h0]
      obtain ⟨l, hl, _⟩ := ih (n / 10) (Nat.digitChar (n % 10) :: ds)
      refine ⟨l ++ [Nat.digitChar (n % 10)], ?_, fun _ => by simp⟩
      rw [hl, List.append_assoc, List.singleton_append]

theorem repr_mem_digits (n : Nat) : ∀ c ∈ (Nat.repr n).data, c ∈ digitChars := by
  intro c hc
  have h : (Nat.repr n).data = Nat.toDigitsCore 10 (n + 1) n [] := rfl
  rw [h] at hc
  exact toDigitsCore_mem (n + 1) n [] (by simp) c hc

theorem repr_ne_nil (n : Nat) : (Nat.repr n).data ≠ [] := by
  have h : (Nat.repr n).data = Nat.toDigitsCore 10 (n + 1) n [] := rfl
  rw [h]
  obtain ⟨l, hl, hne⟩ := toDigitsCore_shape (n + 1) n []
  rw [hl]
  simpa using hne (by omega)

theorem tokShape_mention (id : Nat) :
    TokShape (mentionToken id) '@' (Nat.repr id).data :=
  ⟨rfl, Or.inl rfl, repr_ne_nil id, repr_mem_digits id⟩

theorem tokShape_channel (id : Nat) :
    TokShape (channelToken id) '#' (Nat.repr id).data :=
  ⟨rfl, Or.inr rfl, repr_ne_nil id, repr_mem_digits id⟩

theorem repShape_of_goodName {sig : Char} (hsig : sig = '@' ∨ sig = '#')
    {nm : List Char} (h : goodName nm) : RepShape (sig :: nm) :=
  ⟨sig, nm, rfl, hsig, h.1, h.2⟩

/-!
## Core substitution lemmas

`replaceAux_tail_stable`: if a final run `q` of a token tail
`sig :: ds ++ ['>']` leads the output of a substitution whose replacement
is sigil-plus-letters, then `q` already led the input.
-/

theorem digit_alpha_disjoint : ∀ c ∈ digitChars, c ∉ alphaChars := by decide

theorem sigil_not_in_tail {sig2 : Char} (hsig2 : sig2 = '@' ∨ sig2 = '#')
    {ds : List Char} (hdig : ∀ c ∈ ds, c ∈ digitChars)
    (hmem : sig2 ∈ ds ++ ['>']) : False := by
  rcases List.mem_append.mp hmem with h | h
  · rcases hsig2 with rfl | rfl
    · exact absurd (hdig _ h) (by decide)
    · exact absurd (hdig _ h) (by decide)
  · have h2 := List.mem_singleton.mp h
    rcases hsig2 with rfl | rfl <;> exact absurd h2 (by decide)

theorem no_digit_leads_alpha {d e : Char} (hd : d ∈ digitChars)
    (he : e ∈ alphaChars) (h : d = e) : False := by
  subst h
  exact digit_alpha_disjoint _ hd he

theorem replaceAux_tail_stable {sig : Char} {ds rep pat : List Char}
    (hds : ds ≠ [])
    (hdig : ∀ c ∈ ds, c ∈ digitChars) (hrep : RepShape rep) :
    ∀ fuel (v q : List Char), v.length ≤ fuel → q ≠ [] →
      IsTail q (sig :: (ds ++ ['>'])) →
      leadsWith q (replaceAllAux pat rep fuel v) = true →
      leadsWith q v = true := by
  intro fuel
  induction fuel with
  | zero =>
    intro v q hlen hq htail hlw
    have hv : v = [] := List.eq_nil_of_length_eq_zero (Nat.le_zero.mp hlen)
    subst hv
    simp only [replaceAllAux] at hlw
    exact absurd (eq_nil_of_leadsWith_nil hlw) hq
  | succ f ih =>
    intro v q hlen hq htail hlw
    cases v with
    | nil =>
      simp only [replaceAllAux] at hlw
      exact absurd (eq_nil_of_leadsWith_nil hlw) hq
    | cons c rest =>
      simp only [replaceAllAux] at hlw
      by_cases hcond : (!pat.isEmpty && leadsWith pat (c :: rest)) = true
      · rw [if_pos hcond] at hlw
        exfalso
        obtain ⟨sig2, nm, hrepeq, hsig2, hnm, halpha⟩ := hrep
        rw [hrepeq] at hlw
        rcases leadsWith_append_elim hlw with hlw2 | ⟨q2, hq2, hlw2⟩
        · -- q leads the replacement sig2 :: nm
          cases q with
          | nil => exact hq rfl
          | cons qh qt =>
            rw [leadsWith_cons_iff] at hlw2
            obtain ⟨hq1, hlw3⟩ := hlw2
            rcases isTail_elim htail with hqe | htail2
            · -- q is the whole token tail
              injection hqe with he1 he2
              subst he2
              cases ds with
              | nil => exact hds rfl
              | cons d ds2 =>
                cases nm with
                | nil => simp [leadsWith, List.cons_append] at hlw3
                | cons e nm2 =>
                  simp only [List.append_eq, List.cons_append] at hlw3
                  rw [leadsWith_cons_iff] at hlw3
                  exact no_digit_leads_alpha (hdig _ (List.mem_cons_self _ _))
                    (halpha _ (List.mem_cons_self _ _)) hlw3.1
            · -- q sits inside ds ++ ['>'], yet starts with the sigil
              have hmem : qh ∈ ds ++ ['>'] :=
                mem_of_isTail htail2 _ (List.mem_cons_self _ _)
              exact sigil_not_in_tail (hq1 ▸ hsig2) hdig hmem
        · -- q extends past the replacement: the replacement leads q
          rw [List.cons_append] at hq2
          rcases isTail_elim htail with hqe | htail2
          · -- q is the whole token tail
            rw [hqe] at hq2
            injection hq2 with he1 he2
            cases ds with
            | nil => exact hds rfl
            | cons d ds2 =>
              cases nm with
              | nil => exact hnm rfl
              | cons e nm2 =>
                simp only [List.append_eq, List.cons_append] at he2
                injection he2 with he3 _
                exact no_digit_leads_alpha (hdig _ (List.mem_cons_self _ _))
                  (halpha _ (List.mem_cons_self _ _)) he3
          · -- q sits inside ds ++ ['>'], yet starts with the sigil
            have hq0 : sig2 ∈ q := by
              rw [hq2]
              exact List.mem_cons_self _ _
            have hmem : sig2 ∈ ds ++ ['>'] := mem_of_isTail htail2 _ hq0
            exact sigil_not_in_tail hsig2 hdig hmem
      · rw [if_neg hcond] at hlw
        cases q with
        | nil => exact absurd rfl hq
        | cons qh qt =>
          rw [leadsWith_cons_iff] at hlw
          obtain ⟨rfl, hlw2⟩ := hlw
          cases qt with
          | nil => exact leadsWith_cons_iff.mpr ⟨rfl, leadsWith_nil rest⟩
          | cons x xs =>
            have hlen2 : rest.length ≤ f := by
              simp only [List.length_cons] at hlen
              omega
            have hqt := ih rest (x :: xs) hlen2 (by simp) (isTail_step htail) hlw2
            exact leadsWith_cons_iff.mpr ⟨rfl, hqt⟩

theorem opening_not_in_rep {rep : List Char} (hrep : RepShape rep) :
    '<' ∉ rep := by
  obtain ⟨sig2, nm, rfl, hsig2, hnm, halpha⟩ := hrep
  intro hmem
  rcases List.mem_cons.mp hmem with h | h
  · rcases hsig2 with rfl | rfl <;> exact absurd h (by decide)
  · exact absurd (halpha _ h) (by decide)

theorem replaceAux_self_clean {tok : List Char} {sig : Char} {ds nm : List Char}
    (hshape : TokShape tok sig ds) (hnm : nm ≠ [])
    (halpha : ∀ c ∈ nm, c ∈ alphaChars) :
    ∀ fuel (s : List Char), s.length ≤ fuel →
      segIn tok (replaceAllAux tok (sig :: nm) fuel s) = false := by
  obtain ⟨htok, hsig, hds, hdig⟩ := hshape
  have hrep : RepShape (sig :: nm) := ⟨sig, nm, rfl, hsig, hnm, halpha⟩
  subst htok
  intro fuel
  induction fuel with
  | zero =>
    intro s hlen
    have hs : s = [] := List.eq_nil_of_length_eq_zero (Nat.le_zero.mp hlen)
    subst hs
    rfl
  | succ f ih =>
    intro s hlen
    cases s with
    | nil => rfl
    | cons c rest =>
      have hlen2 : rest.length ≤ f := by
        simp only [List.length_cons] at hlen
        omega
      simp only [replaceAllAux]
      by_cases hcond :
          (!('<' :: sig :: (ds ++ ['>']) : List Char).isEmpty &&
            leadsWith ('<' :: sig :: (ds ++ ['>'])) (c :: rest)) = true
      · rw [if_pos hcond]
        rw [Bool.eq_false_iff]
        intro hseg
        have hX : segIn ('<' :: sig :: (ds ++ ['>']))
            (replaceAllAux ('<' :: sig :: (ds ++ ['>'])) (sig :: nm) f
              ((c :: rest).drop ('<' :: sig :: (ds ++ ['>']) : List Char).length)) = true :=
          segIn_head_skip _ (opening_not_in_rep hrep) hseg
        have hlen3 : ((c :: rest).drop
            ('<' :: sig :: (ds ++ ['>']) : List Char).length).length ≤ f := by
          rw [List.length_drop]
          simp only [List.length_cons, List.length_append] at hlen ⊢
          omega
        simp only [List.append_eq, List.cons_append] at hX
        rw [ih _ hlen3] at hX
        cases hX
      · rw [if_neg hcond]
        rw [Bool.eq_false_iff]
        intro hseg
        simp only [segIn, Bool.or_eq_true] at hseg
        rcases hseg with hlw | hseg
        · obtain ⟨he, hlw2⟩ := leadsWith_cons_iff.mp hlw
          have hrest := replaceAux_tail_stable hds hdig hrep f rest
            (sig :: (ds ++ ['>'])) hlen2 (by simp) ⟨[], rfl⟩ hlw2
          apply hcond
          rw [Bool.and_eq_true]
          refine ⟨by simp, ?_⟩
          exact leadsWith_cons_iff.mpr ⟨he, hrest⟩
        · rw [ih _ hlen2] at hseg
          cases hseg

theorem replaceAux_keeps_clean {tok : List Char} {sig : Char}
    {ds rep pat : List Char}
    (hshape : TokShape tok sig ds) (hrep : RepShape rep) :
    ∀ fuel (v : List Char), v.length ≤ fuel → segIn tok v = false →
      segIn tok (replaceAllAux pat rep fuel v) = false := by
  obtain ⟨htok, hsig, hds, hdig⟩ := hshape
  subst htok
  intro fuel
  induction fuel with
  | zero =>
    intro v hlen hv
    have hs : v = [] := List.eq_nil_of_length_eq_zero (Nat.le_zero.mp hlen)
    subst hs
    rfl
  | succ f ih =>
    intro v hlen hv
    cases v with
    | nil => rfl
    | cons c rest =>
      have hlen2 : rest.length ≤ f := by
        simp only [List.length_cons] at hlen
        omega
      have hv2 : segIn ('<' :: sig :: (ds ++ ['>'])) rest = false := by
        simp only [segIn, Bool.or_eq_false_iff] at hv
        exact hv.2
      simp only [replaceAllAux]
      by_cases hcond : (!pat.isEmpty && leadsWith pat (c :: rest)) = true
      · rw [if_pos hcond]
        rw [Bool.eq_false_iff]
        intro hseg
        have hX := segIn_head_skip _ (opening_not_in_rep hrep) hseg
        have hpat : pat ≠ [] := by
          intro h
          subst h
          simp at hcond
        have hlen3 : ((c :: rest).drop pat.length).length ≤ f := by
          rw [List.length_drop]
          have : 0 < pat.length := List.length_pos.mpr hpat
          simp only [List.length_cons] at hlen ⊢
          omega
        have hdropclean : segIn ('<' :: sig :: (ds ++ ['>']))
            ((c :: rest).drop pat.length) = false := by
          rw [Bool.eq_false_iff]
          intro h2
          have := segIn_of_isTail (isTail_drop pat.length (c :: rest)) h2
          rw [hv] at this
          cases this
        simp only [List.append_eq, List.cons_append] at hX
        rw [ih _ hlen3 hdropclean] at hX
        cases hX
      · rw [if_neg hcond]
        rw [Bool.eq_false_iff]
        intro hseg
        simp only [segIn, Bool.or_eq_true] at hseg
        rcases hseg with hlw | hseg
        · obtain ⟨he, hlw2⟩ := leadsWith_cons_iff.mp hlw
          have hrest := replaceAux_tail_stable hds hdig hrep f rest
            (sig :: (ds ++ ['>'])) hlen2 (by simp) ⟨[], rfl⟩ hlw2
          have hlead : leadsWith ('<' :: sig :: (ds ++ ['>'])) (c :: rest) = true :=
            leadsWith_cons_iff.mpr ⟨he, hrest⟩
          have := segIn_of_leadsWith hlead
          rw [hv] at this
          cases this
        · rw [ih _ hlen2 hv2] at hseg
          cases hseg

theorem replaceAll_self_clean {tok : List Char} {sig : Char} {ds nm : List Char}
    (hshape : TokShape tok sig ds) (hnm : nm ≠ [])
    (halpha : ∀ c ∈ nm, c ∈ alphaChars) (s : List Char) :
    segIn tok (replaceAll tok (sig :: nm) s) = false :=
  replaceAux_self_clean hshape hnm halpha s.length s le_rfl

theorem replaceAll_keeps_clean {tok : List Char} {sig : Char}
    {ds rep pat : List Char} (hshape : TokShape tok sig ds)
    (hrep : RepShape rep) {s : List Char} (hs : segIn tok s = false) :
    segIn tok (replaceAll pat rep s) = false :=
  replaceAux_keeps_clean hshape hrep s.length s le_rfl hs

/-!
## Lifting cleanliness through the transformer's phases
-/

theorem trim_keeps_clean {tok c : List Char} (h : segIn tok c = false) :
    segIn tok (trimChars c) = false := by
  rw [Bool.eq_false_iff]
  intro h2
  have h3 := trim_segIn h2
  rw [h] at h3
  cases h3

theorem foldUser_keeps {tok : List Char} {sig : Char} {ds : List Char}
    (hshape : TokShape tok sig ds) :
    ∀ (us : List User) (c : List Char), (∀ u ∈ us, goodName u.displayName) →
      segIn tok c = false → segIn tok (us.foldl applyUser c) = false := by
  intro us
  induction us with
  | nil => intro c _ hc; simpa using hc
  | cons u us ih =>
    intro c hgood hc
    rw [List.foldl_cons]
    refine ih _ (fun x hx => hgood x (List.mem_cons_of_mem _ hx)) ?_
    exact replaceAll_keeps_clean hshape
      (repShape_of_goodName (Or.inl rfl) (hgood u (List.mem_cons_self _ _))) hc

theorem foldUser_clean :
    ∀ (us : List User) (c : List Char), (∀ u ∈ us, goodName u.displayName) →
      ∀ u ∈ us, segIn (mentionToken u.id) (us.foldl applyUser c) = false := by
  intro us
  induction us with
  | nil => intro c _ u hu; cases hu
  | cons u0 us ih =>
    intro c hgood u hu
    rw [List.foldl_cons]
    rcases List.mem_cons.mp hu with rfl | hu2
    · have hg := hgood u (List.mem_cons_self _ _)
      refine foldUser_keeps (tokShape_mention u.id) us _
        (fun x hx => hgood x (List.mem_cons_of_mem _ hx)) ?_
      exact replaceAll_self_clean (tokShape_mention u.id) hg.1 hg.2 c
    · exact ih _ (fun x hx => hgood x (List.mem_cons_of_mem _ hx)) u hu2

theorem foldChannel_keeps {tok : List Char} {sig : Char} {ds : List Char}
    (hshape : TokShape tok sig ds) :
    ∀ (chs : List ChannelMention) (c : List Char),
      (∀ ch ∈ chs, goodName ch.name) →
      segIn tok c = false → segIn tok (chs.foldl applyChannel c) = false := by
  intro chs
  induction chs with
  | nil => intro c _ hc; simpa using hc
  | cons ch chs ih =>
    intro c hgood hc
    rw [List.foldl_cons]
    refine ih _ (fun x hx => hgood x (List.mem_cons_of_mem _ hx)) ?_
    exact replaceAll_keeps_clean hshape
      (repShape_of_goodName (Or.inr rfl) (hgood ch (List.mem_cons_self _ _))) hc

theorem foldChannel_clean :
    ∀ (chs : List ChannelMention) (c : List Char),
      (∀ ch ∈ chs, goodName ch.name) →
      ∀ ch ∈ chs, segIn (channelToken ch.id) (chs.foldl applyChannel c) = false := by
  intro chs
  induction chs with
  | nil => intro c _ ch hch; cases hch
  | cons ch0 chs ih =>
    intro c hgood ch hch
    rw [List.foldl_cons]
    rcases List.mem_cons.mp hch with rfl | hch2
    · have hg := hgood ch (List.mem_cons_self _ _)
      refine foldChannel_keeps (tokShape_channel ch.id) chs _
        (fun x hx => hgood x (List.mem_cons_of_mem _ hx)) ?_
      exact replaceAll_self_clean (tokShape_channel ch.id) hg.1 hg.2 c
    · exact ih _ (fun x hx => hgood x (List.mem_cons_of_mem _ hx)) ch hch2

theorem foldRole_keeps {tok : List Char} {sig : Char} {ds : List Char}
    (hshape : TokShape tok sig ds) (g : Guild) :
    ∀ (rs : List Nat) (c : List Char),
      (∀ r ∈ rs, ∀ ro, g.roles r = some ro → goodName ro.name) →
      segIn tok c = false → segIn tok (rs.foldl (applyRole g) c) = false := by
  intro rs
  induction rs with
  | nil => intro c _ hc; simpa using hc
  | cons r rs ih =>
    intro c hgood hc
    rw [List.foldl_cons]
    refine ih _ (fun x hx => hgood x (List.mem_cons_of_mem _ hx)) ?_
    cases hro : g.roles r with
    | none => simpa [applyRole, hro] using hc
    | some ro =>
      have hg := hgood r (List.mem_cons_self _ _) ro hro
      simp only [applyRole, hro]
      exact replaceAll_keeps_clean hshape
        (repShape_of_goodName (Or.inl rfl) hg) hc

theorem substRoles_keeps {tok : List Char} {sig : Char} {ds : List Char}
    (hshape : TokShape tok sig ds) (cache : Cache) (msg : Message)
    (hhyg : RolesHygienic cache msg) {c : List Char}
    (hc : segIn tok c = false) :
    segIn tok (substRoles cache msg c) = false := by
  cases hgid : msg.guild_id with
  | none => simpa [substRoles, hgid] using hc
  | some gid =>
    cases hg : cache.guild gid with
    | none => simpa [substRoles, hgid, hg] using hc
    | some g =>
      have h2 := foldRole_keeps hshape g _ c (hhyg gid hgid g hg) hc
      simpa [substRoles, hgid, hg] using h2

theorem author_block_no_opening {author : List Char} (hauthor : '<' ∉ author) :
    '<' ∉ author ++ " (Discord):".toList := by
  intro hmem
  rcases List.mem_append.mp hmem with h2 | h2
  · exact hauthor h2
  · exact absurd h2 (by decide)

theorem author_clean {tok : List Char} {sig : Char} {ds : List Char}
    (hshape : TokShape tok sig ds) {author : List Char}
    (hauthor : '<' ∉ author) :
    segIn tok (author ++ " (Discord):".toList) = false := by
  obtain ⟨htok, _, _, _⟩ := hshape
  rw [Bool.eq_false_iff]
  intro h
  exact author_block_no_opening hauthor
    (segIn_mem h '<' (by rw [htok]; exact List.mem_cons_self _ _))

theorem out_with_body_clean {tok : List Char} {sig : Char} {ds : List Char}
    (hshape : TokShape tok sig ds) {author body : List Char}
    (hauthor : '<' ∉ author) (hbody : segIn tok body = false) :
    segIn tok ((author ++ " (Discord):".toList) ++ ' ' :: trimChars body) = false := by
  obtain ⟨htok, hsig, hds, hdig⟩ := hshape
  subst htok
  rw [Bool.eq_false_iff]
  intro h
  have h2 := segIn_head_skip _ (author_block_no_opening hauthor) h
  simp only [segIn, Bool.or_eq_true] at h2
  rcases h2 with h3 | h3
  · obtain ⟨he, _⟩ := leadsWith_cons_iff.mp h3
    exact absurd he (by decide)
  · have h4 := trim_segIn h3
    rw [hbody] at h4
    cases h4

/-!
## Directory lemmas
-/

theorem lookup_insert_self (m : List (List Char × List Char)) (k v : List Char) :
    lookupMapping (insertMapping m k v) k = some v := by
  induction m with
  | nil => simp [insertMapping, lookupMapping]
  | cons p rest ih =>
    obtain ⟨k0, v0⟩ := p
    simp only [insertMapping]
    by_cases h : k0 = k
    · rw [if_pos h]
      simp [lookupMapping]
    · rw [if_neg h]
      simp only [lookupMapping]
      rw [if_neg h]
      exact ih

theorem lookup_insert_other (m : List (List Char × List Char))
    (k v k2 : List Char) (h : k ≠ k2) :
    lookupMapping (insertMapping m k v) k2 = lookupMapping m k2 := by
  induction m with
  | nil => simp [insertMapping, lookupMapping, h]
  | cons p rest ih =>
    obtain ⟨k0, v0⟩ := p
    simp only [insertMapping]
    by_cases h0 : k0 = k
    · subst h0
      rw [if_pos rfl]
      simp only [lookupMapping]
      rw [if_neg h, if_neg h]
    · rw [if_neg h0]
      simp only [lookupMapping]
      by_cases h2 : k0 = k2
      · rw [if_pos h2, if_pos h2]
      · rw [if_neg h2, if_neg h2]
        exact ih

theorem foldl_insertPair_keeps :
    ∀ (post : List (List Char)) (m : List (List Char × List Char))
      (key val : List Char),
      (∀ q ∈ post, ∀ k2 v2, splitOnChar '=' q = [k2, v2] → trimChars k2 ≠ key) →
      lookupMapping m key = some val →
      lookupMapping (post.foldl insertPair m) key = some val := by
  intro post
  induction post with
  | nil => intro m key val _ h; simpa using h
  | cons q post ih =>
    intro m key val hpost h
    rw [List.foldl_cons]
    refine ih _ key val (fun x hx => hpost x (List.mem_cons_of_mem _ hx)) ?_
    cases hsp : splitOnChar '=' q with
    | nil => simpa [insertPair, hsp] using h
    | cons a t =>
      cases t with
      | nil => simpa [insertPair, hsp] using h
      | cons b t2 =>
        cases t2 with
        | nil =>
          have hne : trimChars a ≠ key := hpost q (List.mem_cons_self _ _) a b hsp
          simp only [insertPair, hsp]
          rw [lookup_insert_other _ _ _ _ hne]
          exact h
        | cons cc t3 => simpa [insertPair, hsp] using h

theorem foldl_insertPair_filter :
    ∀ (pairs : List (List Char)) (init : List (List Char × List Char)),
      pairs.foldl insertPair init =
        (pairs.filter fun p => (splitOnChar '=' p).length == 2).foldl
          insertPair init := by
  intro pairs
  induction pairs with
  | nil => intro init; rfl
  | cons p pairs ih =>
    intro init
    rw [List.foldl_cons, List.filter_cons]
    cases hsp : splitOnChar '=' p with
    | nil =>
      simp only [hsp, List.length_nil]
      have hstep : insertPair init p = init := by simp [insertPair, hsp]
      rw [hstep]
      simpa using ih init
    | cons a t =>
      cases t with
      | nil =>
        simp only [hsp, List.length_cons, List.length_nil]
        have hstep : insertPair init p = init := by simp [insertPair, hsp]
        rw [hstep]
        simpa using ih init
      | cons b t2 =>
        cases t2 with
        | nil =>
          simp only [hsp, List.length_cons, List.length_nil]
          rw [if_pos (by rfl), List.foldl_cons]
          exact ih (insertPair init p)
        | cons cc t3 =>
          simp only [hsp, List.length_cons]
          have hstep : insertPair init p = init := by simp [insertPair, hsp]
          rw [hstep]
          rw [if_neg (by simp only [beq_iff_eq]; omega)]
          simpa using ih init

/-!
## Transformer and Coordinator analysis
-/

theorem format_ok_shape {cache : Cache} {msg : Message} {out : List Char}
    (h : format_discord_message cache msg = Except.ok out) :
    leadsWith (msg.author.displayName ++ " (Discord):".toList) out = true ∧
      out ≠ [] ∧ trimChars out ≠ [] := by
  have hp : '(' ∈ msg.author.displayName ++ " (Discord):".toList :=
    List.mem_append_right _ (by decide)
  have hpw : ('(' : Char).isWhitespace = false := by decide
  simp only [format_discord_message] at h
  by_cases hempty : (trimChars msg.content).isEmpty = true
  · rw [if_pos hempty] at h
    simp at h
  · rw [if_neg hempty] at h
    injection h with h2
    subst h2
    by_cases hinner : (trimChars (substRoles cache msg
        (msg.mention_channels.foldl applyChannel
          (msg.mentions.foldl applyUser msg.content)))).isEmpty = true
    · rw [if_pos hinner]
      exact ⟨leadsWith_refl _, List.ne_nil_of_mem hp, trim_ne_nil hp hpw⟩
    · rw [if_neg hinner]
      exact ⟨leadsWith_append_self _ _,
        List.ne_nil_of_mem (List.mem_append_left _ hp),
        trim_ne_nil (List.mem_append_left _ hp) hpw⟩

theorem format_ok_of_content {cache : Cache} {msg : Message}
    (h : (trimChars msg.content).isEmpty = false) :
    ∃ out, format_discord_message cache msg = Except.ok out := by
  cases hfmt : format_discord_message cache msg with
  | ok t => exact ⟨t, rfl⟩
  | error e =>
    exfalso
    simp only [format_discord_message] at hfmt
    rw [if_neg (by simp [h])] at hfmt
    exact absurd hfmt (by simp)

theorem skip_only_guard {cache : Cache} {env : Option (List Char)}
    {session : Option Session} {now : Nat} {msg : Message}
    (h : forward_message cache env session now msg = Except.ok Outcome.skipped) :
    msg.author.bot = true ∨ leadsWith ['~'] msg.content = true := by
  by_cases hguard : (msg.author.bot || leadsWith ['~'] msg.content) = true
  · simp only [Bool.or_eq_true] at hguard
    exact hguard
  · exfalso
    have hg2 : (msg.author.bot || leadsWith ['~'] msg.content) = false :=
      Bool.eq_false_iff.mpr hguard
    simp only [forward_message, hg2, Bool.false_eq_true, if_false] at h
    cases hfmt : format_discord_message cache msg with
    | error e =>
      simp only [hfmt] at h
      simp at h
    | ok t =>
      simp only [hfmt] at h
      obtain ⟨-, -, htrim⟩ := format_ok_shape hfmt
      have hemp : ¬((trimChars t).isEmpty = true) := by
        intro hx
        exact htrim ((isEmpty_true_iff _).mp hx)
      rw [if_neg hemp] at h
      cases hst : get_streamer_for_channel env msg.channel_id with
      | error e =>
        simp only [hst] at h
        simp at h
      | ok did =>
        simp only [hst] at h
        cases session with
        | none => simp at h
        | some s => simp at h

theorem submitted_text {cache : Cache} {env : Option (List Char)}
    {session : Option Session} {now : Nat} {msg : Message} {r : RecordData}
    (h : forward_message cache env session now msg =
      Except.ok (Outcome.submitted r)) :
    trimChars r.text ≠ [] ∧ r.text ≠ [] := by
  by_cases hguard : (msg.author.bot || leadsWith ['~'] msg.content) = true
  · exfalso
    simp [forward_message, hguard] at h
  · have hg2 : (msg.author.bot || leadsWith ['~'] msg.content) = false :=
      Bool.eq_false_iff.mpr hguard
    simp only [forward_message, hg2, Bool.false_eq_true, if_false] at h
    cases hfmt : format_discord_message cache msg with
    | error e =>
      exfalso
      simp only [hfmt] at h
      simp at h
    | ok t =>
      simp only [hfmt] at h
      by_cases hemp : (trimChars t).isEmpty = true
      · exfalso
        rw [if_pos hemp] at h
        simp at h
      · rw [if_neg hemp] at h
        cases hst : get_streamer_for_channel env msg.channel_id with
        | error e =>
          exfalso
          simp only [hst] at h
          simp at h
        | ok did =>
          simp only [hst] at h
          cases session with
          | none => simp at h
          | some s =>
            have h2 : Outcome.submitted ⟨t, now, did⟩ = Outcome.submitted r := by
              injection h
            have h3 : (⟨t, now, did⟩ : RecordData) = r := by
              injection h2
            have htne : trimChars t ≠ [] := by
              intro hx
              rw [hx] at hemp
              exact hemp rfl
            constructor
            · rw [← h3]
              exact htne
            · rw [← h3]
              intro hx
              simp only at hx
              rw [hx] at htne
              exact htne rfl

/-!
## Claims
-/

/-- C1: the claim states that a whitespace-only message makes `handle`
stop with success (intentional skip).  The code instead propagates the
Transformer's `EmptyContent` error through the `?` at fwd.rs:50, so
`forward_message` returns an error on the whitespace-only `msgBlank`; the
dedicated empty-skip branch at fwd.rs:53-60 is unreachable.  This theorem
evaluates the code at the failing input. -/
theorem C1_whitespace_message_yields_error :
    forward_message noGuilds none none 0 msgBlank =
      Except.error "no content found!".toList := by decide

/-- C2: whenever `forward_message` submits a record, the record's `text`
is non-empty and not whitespace-only.  Contrapositively, a transformed
text that trims to empty never reaches record construction or
submission. -/
theorem C2_submitted_record_text_nonempty :
    ∀ (cache : Cache) (env : Option (List Char)) (session : Option Session)
      (now : Nat) (msg : Message) (r : RecordData),
      forward_message cache env session now msg =
        Except.ok (Outcome.submitted r) →
      r.text ≠ [] ∧ trimChars r.text ≠ [] := by
  intro cache env session now msg r h
  obtain ⟨h1, h2⟩ := submitted_text h
  exact ⟨h2, h1⟩

/-- Witness for C2 at a concrete successful forward. -/
theorem C2_submitted_record_text_nonempty_witness :
    (⟨"Ana (Discord): hi".toList, 0, "did:web:x".toList⟩ : RecordData).text ≠ [] ∧
    trimChars
      (⟨"Ana (Discord): hi".toList, 0, "did:web:x".toList⟩ : RecordData).text ≠ [] :=
  C2_submitted_record_text_nonempty noGuilds (some "chan=did:web:x".toList)
    (some ⟨"did:web:me".toList⟩) 0 msgPlain _ (by decide)

/-- C3: a message from an automated author, or one whose raw text starts
with the reserved command prefix `~`, is skipped with success for every
cache, environment, session and timestamp — so no transformation,
directory lookup, session acquisition or submission takes place. -/
theorem C3_automated_or_command_skipped :
    ∀ (cache : Cache) (env : Option (List Char)) (session : Option Session)
      (now : Nat) (msg : Message),
      msg.author.bot = true ∨ leadsWith ['~'] msg.content = true →
      forward_message cache env session now msg = Except.ok Outcome.skipped := by
  intro cache env session now msg h
  have hg : (msg.author.bot || leadsWith ['~'] msg.content) = true := by
    rcases h with h | h <;> simp [h]
  simp [forward_message, hg]

/-- Witness for C3 at a concrete automated-author message. -/
theorem C3_automated_or_command_skipped_witness :
    forward_message noGuilds none none 0 msgBot = Except.ok Outcome.skipped :=
  C3_automated_or_command_skipped noGuilds none none 0 msgBot (Or.inl (by decide))

/-- C4: the round-trip scenario of the specification: author `Ana`, raw
text `<@123> hi`, one user mention `{id:123, display_name:"Bob"}`
transforms to exactly `Ana (Discord): @Bob hi`. -/
theorem C4_round_trip_scenario :
    format_discord_message noGuilds msgRoundTrip =
      Except.ok "Ana (Discord): @Bob hi".toList := by decide

/-- C5: directory resolution is a pure function of the configuration
string: `"a=x,b=y"` resolves `a` to `x` and `c` to the not-found error;
and for every configuration string the parse result equals the parse of
only the well-formed (exactly-two-field) pairs, so malformed pairs are
dropped with no error. -/
theorem C5_directory_resolution :
    get_streamer_for_channel (some "a=x,b=y".toList) "a".toList =
        Except.ok "x".toList ∧
    get_streamer_for_channel (some "a=x,b=y".toList) "c".toList =
        Except.error "No streamer mapping found for channel c".toList ∧
    ∀ s : List Char, get_channel_mappings (some s) =
      parseMappings ((splitOnChar ',' s).filter
        fun p => (splitOnChar '=' p).length == 2) := by
  refine ⟨by decide, by decide, ?_⟩
  intro s
  exact foldl_insertPair_filter (splitOnChar ',' s) []

/-- C6: an absent `CHANNEL_MAPPINGS` variable yields the empty directory
and `should_forward_channel` is `false` for every channel id. -/
theorem C6_absent_config_disables_forwarding :
    get_channel_mappings none = [] ∧
    ∀ channel_id : List Char, should_forward_channel none channel_id = false :=
  ⟨rfl, fun _ => rfl⟩

/-- C7 counterexample: mention substitution can reintroduce a listed
user's token.  With content `<@2>` and mentions `1 ↦ "A"`, `2 ↦ "<@1>"`,
the output still contains `<@1>`, the token of listed mention 1 — so the
claim "the output contains zero occurrences of the token of every listed
mention" is false as stated. -/
theorem C7_counterexample_name_reintroduces_token :
    format_discord_message noGuilds msgPolluted =
        Except.ok "Ana (Discord): @<@1>".toList ∧
    segIn (mentionToken 1) "Ana (Discord): @<@1>".toList = true ∧
    ({ id := 1, displayName := "A".toList, bot := false } : User) ∈
      msgPolluted.mentions := by decide

/-- C7 (amended): if every mentioned user's display name, mentioned
channel's name and resolvable mentioned role's name is a nonempty string
of ASCII letters, and the author's display name contains no `<`, then the
transformed output contains zero occurrences of `<@id>` for every listed
user mention and of `<#id>` for every listed channel mention (each
substitution being global). -/
theorem C7_tokens_absent_for_benign_names :
    ∀ (cache : Cache) (msg : Message) (out : List Char),
      (∀ u ∈ msg.mentions, goodName u.displayName) →
      (∀ ch ∈ msg.mention_channels, goodName ch.name) →
      RolesHygienic cache msg →
      '<' ∉ msg.author.displayName →
      format_discord_message cache msg = Except.ok out →
      (∀ u ∈ msg.mentions, segIn (mentionToken u.id) out = false) ∧
      (∀ ch ∈ msg.mention_channels, segIn (channelToken ch.id) out = false) := by
  intro cache msg out husers hchans hroles hauthor hfmt
  simp only [format_discord_message] at hfmt
  by_cases hempty : (trimChars msg.content).isEmpty = true
  · rw [if_pos hempty] at hfmt
    simp at hfmt
  · rw [if_neg hempty] at hfmt
    injection hfmt with h2
    subst h2
    constructor
    · intro u hu
      have hclean1 : segIn (mentionToken u.id)
          (msg.mentions.foldl applyUser msg.content) = false :=
        foldUser_clean msg.mentions msg.content husers u hu
      have hclean2 := foldChannel_keeps (tokShape_mention u.id)
        msg.mention_channels _ hchans hclean1
      have hclean3 := substRoles_keeps (tokShape_mention u.id)
        cache msg hroles hclean2
      by_cases hinner : (trimChars (substRoles cache msg
          (msg.mention_channels.foldl applyChannel
            (msg.mentions.foldl applyUser msg.content)))).isEmpty = true
      · rw [if_pos hinner]
        exact author_clean (tokShape_mention u.id) hauthor
      · rw [if_neg hinner]
        exact out_with_body_clean (tokShape_mention u.id) hauthor hclean3
    · intro ch hch
      have hclean2 : segIn (channelToken ch.id)
          (msg.mention_channels.foldl applyChannel
            (msg.mentions.foldl applyUser msg.content)) = false :=
        foldChannel_clean msg.mention_channels _ hchans ch hch
      have hclean3 := substRoles_keeps (tokShape_channel ch.id)
        cache msg hroles hclean2
      by_cases hinner : (trimChars (substRoles cache msg
          (msg.mention_channels.foldl applyChannel
            (msg.mentions.foldl applyUser msg.content)))).isEmpty = true
      · rw [if_pos hinner]
        exact author_clean (tokShape_channel ch.id) hauthor
      · rw [if_neg hinner]
        exact out_with_body_clean (tokShape_channel ch.id) hauthor hclean3

/-- Witness for the amended C7 at the round-trip message. -/
theorem C7_tokens_absent_for_benign_names_witness :
    (∀ u ∈ msgRoundTrip.mentions,
      segIn (mentionToken u.id) "Ana (Discord): @Bob hi".toList = false) ∧
    (∀ ch ∈ msgRoundTrip.mention_channels,
      segIn (channelToken ch.id) "Ana (Discord): @Bob hi".toList = false) :=
  C7_tokens_absent_for_benign_names noGuilds msgRoundTrip
    "Ana (Discord): @Bob hi".toList (by decide) (by decide)
    (by intro gid hgid; simp [msgRoundTrip] at hgid) (by decide) (by decide)

/-- C8: an unresolvable role mention leaves the content untouched —
whether the single role id is missing from the guild's role table, the
message has no guild id, or the guild is not in the cache — and the
transformation still succeeds for the whole message; concretely, the
message `<@&9> hi` with no guild context keeps the literal `<@&9>` token
in the successful output. -/
theorem C8_unresolved_role_left_in_place :
    (∀ (g : Guild) (content : List Char) (r : Nat),
      g.roles r = none → applyRole g content r = content) ∧
    (∀ (cache : Cache) (msg : Message) (content : List Char),
      msg.guild_id = none → substRoles cache msg content = content) ∧
    (∀ (cache : Cache) (msg : Message) (content : List Char) (gid : Nat),
      msg.guild_id = some gid → cache.guild gid = none →
      substRoles cache msg content = content) ∧
    (∀ (cache : Cache) (msg : Message),
      (trimChars msg.content).isEmpty = false →
      ∃ out, format_discord_message cache msg = Except.ok out) ∧
    format_discord_message noGuilds msgRole =
      Except.ok "Rae (Discord): <@&9> hi".toList := by
  refine ⟨?_, ?_, ?_, ?_, by decide⟩
  · intro g content r h
    simp [applyRole, h]
  · intro cache msg content h
    simp [substRoles, h]
  · intro cache msg content gid h1 h2
    simp [substRoles, h1, h2]
  · intro cache msg h
    exact format_ok_of_content h

/-- Witness for C8 at concrete inputs. -/
theorem C8_unresolved_role_left_in_place_witness :
    applyRole ⟨fun _ => none⟩ "<@&9> hi".toList 9 = "<@&9> hi".toList ∧
    ∃ out, format_discord_message noGuilds msgRole = Except.ok out :=
  ⟨C8_unresolved_role_left_in_place.1 ⟨fun _ => none⟩ "<@&9> hi".toList 9 rfl,
   C8_unresolved_role_left_in_place.2.2.2.1 noGuilds msgRole (by decide)⟩

/-- C9: every successfully transformed message begins with the
attribution `"<author> (Discord):"` and is neither empty nor
whitespace-only after trimming; consequently the Coordinator's
post-transformation empty-content skip branch is unreachable — the
only way `forward_message` returns the skip outcome is the initial
bot/command-prefix guard. -/
theorem C9_attribution_and_dead_skip_branch :
    (∀ (cache : Cache) (msg : Message) (out : List Char),
      format_discord_message cache msg = Except.ok out →
      leadsWith (msg.author.displayName ++ " (Discord):".toList) out = true ∧
        out ≠ [] ∧ trimChars out ≠ []) ∧
    (∀ (cache : Cache) (env : Option (List Char)) (session : Option Session)
        (now : Nat) (msg : Message),
      forward_message cache env session now msg = Except.ok Outcome.skipped →
      msg.author.bot = true ∨ leadsWith ['~'] msg.content = true) :=
  ⟨fun _ _ _ h => format_ok_shape h, fun _ _ _ _ _ h => skip_only_guard h⟩

/-- Witness for C9 at concrete inputs. -/
theorem C9_attribution_and_dead_skip_branch_witness :
    (leadsWith (msgRoundTrip.author.displayName ++ " (Discord):".toList)
        "Ana (Discord): @Bob hi".toList = true ∧
      "Ana (Discord): @Bob hi".toList ≠ [] ∧
      trimChars "Ana (Discord): @Bob hi".toList ≠ []) ∧
    (msgBot.author.bot = true ∨ leadsWith ['~'] msgBot.content = true) :=
  ⟨C9_attribution_and_dead_skip_branch.1 noGuilds msgRoundTrip _ (by decide),
   C9_attribution_and_dead_skip_branch.2 noGuilds none none 0 msgBot (by decide)⟩

/-- C10: when the configuration string contains several well-formed pairs
with the same inbound channel id, the directory maps that id to the value
of the last such pair: a well-formed pair whose (trimmed) key is not
re-bound by any later pair determines the lookup. -/
theorem C10_last_mapping_pair_wins :
    ∀ (s : List Char) (pre post : List (List Char)) (p k v : List Char),
      splitOnChar ',' s = pre ++ p :: post →
      splitOnChar '=' p = [k, v] →
      (∀ q ∈ post, ∀ k2 v2, splitOnChar '=' q = [k2, v2] →
        trimChars k2 ≠ trimChars k) →
      lookupMapping (get_channel_mappings (some s)) (trimChars k) =
        some (trimChars v) := by
  intro s pre post p k v hsplit hp hpost
  show lookupMapping (parseMappings (splitOnChar ',' s)) (trimChars k) =
    some (trimChars v)
  rw [hsplit]
  unfold parseMappings
  rw [List.foldl_append, List.foldl_cons]
  refine foldl_insertPair_keeps post _ _ _ hpost ?_
  simp only [insertPair, hp]
  exact lookup_insert_self _ _ _

/-- Witness for C10: in `"1=a,1=b"` the later pair wins. -/
theorem C10_last_mapping_pair_wins_witness :
    lookupMapping (get_channel_mappings (some "1=a,1=b".toList))
      (trimChars "1".toList) = some (trimChars "b".toList) :=
  C10_last_mapping_pair_wins "1=a,1=b".toList ["1=a".toList] []
    "1=b".toList "1".toList "b".toList (by decide) (by decide)
    (fun q hq => absurd hq (List.not_mem_nil q))
